import Mathlib

/-!
Shallow embedding of the reconciler core of `react_ipywidgets/core.py`
(the "reacton" repository): effect records and their consolidation,
state setters, the stabilization loop, key resolution, child discovery,
context lookup, widget property updates and tree teardown.
Each definition mirrors the corresponding Python function; theorems below
settle the frozen claims about the natural-language specification.
-/

namespace Reacton

/-- Errors of the reconciler core, named after the taxonomy of the spec
(the source raises `KeyError` / `RuntimeError` with matching messages). -/
inductive RenderError : Type where
  | KeyCollision
  | ContextNotFound
  | UnstableRenderLoop
  | ResourceLeak
  deriving Repr, DecidableEq

/-- Observable events while running effects: the body of an effect callable
runs, or a stored cleanup callable runs.  Callables are named by ids. -/
inductive EffectEvent : Type where
  | runEv (c : Nat)
  | cleanupEv (c : Nat)
  deriving Repr, DecidableEq

/-- The `Effect` record of the source (`core.py`, class `Effect`):
callable id, dependency list (`none` models Python `None`), optional
cleanup id, optional pending next effect, executed flag. -/
inductive EffectRec : Type where
  | mk (callable : Nat) (dependencies : Option (List Int)) (cleanup : Option Nat)
      (next : Option EffectRec) (executed : Bool)

def EffectRec.callable : EffectRec → Nat
  | .mk c _ _ _ _ => c

def EffectRec.dependencies : EffectRec → Option (List Int)
  | .mk _ d _ _ _ => d

def EffectRec.cleanup : EffectRec → Option Nat
  | .mk _ _ cl _ _ => cl

def EffectRec.next : EffectRec → Option EffectRec
  | .mk _ _ _ nx _ => nx

def EffectRec.executed : EffectRec → Bool
  | .mk _ _ _ _ ex => ex

def EffectRec.setNext (e : EffectRec) (nx : Option EffectRec) : EffectRec :=
  match e with
  | .mk c d cl _ ex => .mk c d cl nx ex

/-- Model of `Effect.__call__`: a no-op when `executed` is set; otherwise runs the
callable (the environment `run` gives the cleanup the callable returns),
records the cleanup and sets the executed flag.  The second component is
the list of observable events. -/
def runEffect (run : Nat → Option Nat) : EffectRec → EffectRec × List EffectEvent
  | .mk c deps cl nx ex =>
    if ex then (.mk c deps cl nx ex, [])
    else (.mk c deps (run c) nx true, [.runEv c])

/-- Model of `_RenderContext.use_side_effect` for one effect slot: `none` models a
slot index past the end of the effects list (initial registration appends
a fresh record); for an existing slot, an executed previous effect gets
the fresh record as its pending `next`, an unexecuted one is replaced. -/
def useSideEffect (slot : Option EffectRec) (c : Nat) (deps : Option (List Int)) : EffectRec :=
  match slot with
  | none => .mk c deps none none false
  | some prev =>
    if prev.executed then prev.setNext (some (.mk c deps none none false))
    else .mk c deps none none false

/-- The per-effect body of `_RenderContext._reconsolidate`: call the effect;
if it has a pending `next` then equal non-null dependencies discard the
pending one, otherwise the stored cleanup runs and the pending effect
replaces the slot and runs; with no pending `next` the effect is called a
second time (a no-op once executed). -/
def consolidateEffect (run : Nat → Option Nat) (e : EffectRec) : EffectRec × List EffectEvent :=
  let r1 := runEffect run e
  match r1.1.next with
  | some nxt =>
    if nxt.dependencies.isSome && decide (r1.1.dependencies = nxt.dependencies) then
      (r1.1.setNext none, r1.2)
    else
      let cleanLog : List EffectEvent :=
        match r1.1.cleanup with
        | some cl => [.cleanupEv cl]
        | none => []
      let r2 := runEffect run nxt
      (r2.1, r1.2 ++ cleanLog ++ r2.2)
  | none =>
    let r2 := runEffect run r1.1
    (r2.1, r1.2 ++ r2.2)

/-- One render pass over an existing effect slot followed by consolidation:
re-register the callable with its dependencies, then consolidate.  Folding
over a list of registrations models successive render passes, accumulating
the event log. -/
def effectPasses (run : Nat → Option Nat) (regs : List (Nat × Option (List Int)))
    (e : EffectRec) : EffectRec × List EffectEvent :=
  regs.foldl
    (fun acc reg =>
      let r := consolidateEffect run (useSideEffect (some acc.1) reg.1 reg.2)
      (r.1, acc.2 ++ r.2))
    (e, [])

theorem runEffect_executed (run : Nat → Option Nat) (e : EffectRec)
    (h : e.executed = true) : runEffect run e = (e, []) := by
  cases e with
  | mk c deps cl nx ex =>
    simp [EffectRec.executed] at h
    simp [runEffect, h]

theorem consolidate_same_deps_noop (run : Nat → Option Nat) (c cNew : Nat) (d : List Int)
    (cl : Option Nat) :
    consolidateEffect run (useSideEffect (some (.mk c (some d) cl none true)) cNew (some d))
      = (.mk c (some d) cl none true, []) := by
  simp [useSideEffect, consolidateEffect, runEffect, EffectRec.executed, EffectRec.setNext,
    EffectRec.next, EffectRec.dependencies]

theorem effectPasses_same_deps_noop (run : Nat → Option Nat) (c : Nat) (d : List Int)
    (cl : Option Nat) (regs : List (Nat × Option (List Int)))
    (h : ∀ r ∈ regs, r.2 = some d) :
    effectPasses run regs (.mk c (some d) cl none true) = (.mk c (some d) cl none true, []) := by
  induction regs with
  | nil => rfl
  | cons reg rest ih =>
    have hreg : reg.2 = some d := h reg (by simp)
    have hrest : ∀ r ∈ rest, r.2 = some d := fun r hr => h r (by simp [hr])
    have step := consolidate_same_deps_noop run c reg.1 d cl
    simp only [effectPasses, List.foldl_cons] at ih ⊢
    rw [hreg]
    rw [step]
    simpa using ih hrest

/-- C1: for an effect slot, re-registering across successive render passes with
the same non-null dependency list leaves the pending replacement discarded during
consolidation, and the effect callable runs exactly once in total; registering a
differing dependency list makes consolidation run the previous cleanup first and
then the new callable, exactly one cleanup-then-rerun. -/
theorem effect_dependency_semantics :
    (∀ (run : Nat → Option Nat) (c0 : Nat) (d : List Int)
        (regs : List (Nat × Option (List Int))), (∀ r ∈ regs, r.2 = some d) →
      (consolidateEffect run (useSideEffect none c0 (some d))).2 ++
        (effectPasses run regs (consolidateEffect run (useSideEffect none c0 (some d))).1).2
        = [.runEv c0]) ∧
    (∀ (run : Nat → Option Nat) (c0 c1 : Nat) (d d1 : List Int) (cl : Nat), d1 ≠ d →
      consolidateEffect run
          (useSideEffect (some (.mk c0 (some d) (some cl) none true)) c1 (some d1))
        = (.mk c1 (some d1) (run c1) none true, [.cleanupEv cl, .runEv c1])) := by
  constructor
  · intro run c0 d regs h
    have hfirst : consolidateEffect run (useSideEffect none c0 (some d))
        = (.mk c0 (some d) (run c0) none true, [.runEv c0]) := by
      simp [useSideEffect, consolidateEffect, runEffect, EffectRec.next]
    rw [hfirst]
    rw [effectPasses_same_deps_noop run c0 d (run c0) regs h]
    simp
  · intro run c0 c1 d d1 cl hne
    simp [useSideEffect, consolidateEffect, runEffect, EffectRec.executed, EffectRec.setNext,
      EffectRec.next, EffectRec.dependencies, EffectRec.cleanup, hne]
    exact fun h => hne h.symm

theorem effect_dependency_semantics_witness :
    (consolidateEffect (fun c => some (c + 10)) (useSideEffect none 1 (some [5]))).2 ++
      (effectPasses (fun c => some (c + 10)) [(2, some [5]), (3, some [5])]
        (consolidateEffect (fun c => some (c + 10)) (useSideEffect none 1 (some [5]))).1).2
      = [.runEv 1] ∧
    consolidateEffect (fun c => some (c + 10))
        (useSideEffect (some (.mk 1 (some [5]) (some 11) none true)) 2 (some [6]))
      = (.mk 2 (some [6]) (some 12) none true, [.cleanupEv 11, .runEv 2]) :=
  ⟨effect_dependency_semantics.1 (fun c => some (c + 10)) 1 [5] [(2, some [5]), (3, some [5])]
      (by decide),
    effect_dependency_semantics.2 (fun c => some (c + 10)) 1 2 [5] [6] 11 (by decide)⟩

/-- C10: invoking an `Effect` whose executed flag is set is a no-op (the callable
does not run again and the stored cleanup is unchanged); hence invoking the same
effect twice runs the body at most once, and the consolidation body, which may
call an effect with no pending next twice, produces each body run at most once. -/
theorem effect_call_idempotent :
    (∀ (run : Nat → Option Nat) (e : EffectRec), e.executed = true →
      runEffect run e = (e, [])) ∧
    (∀ (run : Nat → Option Nat) (e : EffectRec),
      runEffect run (runEffect run e).1 = ((runEffect run e).1, [])) ∧
    (∀ (run : Nat → Option Nat) (c : Nat) (deps : Option (List Int)) (cl : Option Nat)
        (ex : Bool),
      (consolidateEffect run (.mk c deps cl none ex)).2
        = (runEffect run (.mk c deps cl none ex)).2) := by
  refine ⟨runEffect_executed, ?_, ?_⟩
  · intro run e
    cases e with
    | mk c deps cl nx ex => cases ex <;> simp [runEffect]
  · intro run c deps cl ex
    cases ex <;> simp [consolidateEffect, runEffect, EffectRec.next]

theorem effect_call_idempotent_witness :
    runEffect (fun _ => none) (.mk 1 none (some 2) none true)
      = (.mk 1 none (some 2) none true, []) :=
  effect_call_idempotent.1 (fun _ => none) (.mk 1 none (some 2) none true) rfl

/-- The inner stabilization loop of `_RenderContext.render`: while the
`_state_changed` flag is set, re-run the render phase from the root;
`changed n` is the flag left by the n-th nested re-render (`changed
renderCounts` read before re-render number `renderCounts + 1`), and the
counter raises once it exceeds 50.  Returns the total number of nested
re-renders when the loop exits normally. -/
def renderLoop (changed : Nat → Bool) (renderCounts : Nat) : Except RenderError Nat :=
  if changed renderCounts then
    if renderCounts + 1 > 50 then .error .UnstableRenderLoop
    else renderLoop changed (renderCounts + 1)
  else .ok renderCounts
termination_by 51 - renderCounts

theorem renderLoop_always_changed (changed : Nat → Bool)
    (hall : ∀ k, changed k = true) :
    ∀ n, renderLoop changed n = .error .UnstableRenderLoop := by
  have main : ∀ (fuel n : Nat), 51 - n ≤ fuel →
      renderLoop changed n = .error .UnstableRenderLoop := by
    intro fuel
    induction fuel with
    | zero =>
      intro n hn
      rw [renderLoop]
      have h51 : n + 1 > 50 := by omega
      simp [hall n, h51]
    | succ m ih =>
      intro n hn
      rw [renderLoop]
      simp only [hall n, if_true]
      by_cases hgt : n + 1 > 50
      · simp [hgt]
      · simp only [hgt, if_false]
        exact ih (n + 1) (by omega)
  intro n
  exact main (51 - n) n (le_refl _)

/-- C3: the stabilization loop re-runs the render phase while a state setter
flagged a change (an unset flag exits the loop with the count of re-renders
performed), raises the unstable-render-loop error once the number of nested
re-renders exceeds 50, and a component that flags a change on every render
always terminates in that error. -/
theorem stabilization_loop_bound :
    (∀ (changed : Nat → Bool) (n : Nat), changed n = false →
      renderLoop changed n = .ok n) ∧
    (∀ (changed : Nat → Bool) (n : Nat), changed n = true → n + 1 > 50 →
      renderLoop changed n = .error .UnstableRenderLoop) ∧
    (∀ n, renderLoop (fun _ => true) n = .error .UnstableRenderLoop) := by
  refine ⟨?_, ?_, ?_⟩
  · intro changed n h
    rw [renderLoop]
    simp [h]
  · intro changed n h hgt
    rw [renderLoop]
    simp [h, hgt]
  · exact renderLoop_always_changed (fun _ => true) (fun _ => rfl)

theorem stabilization_loop_bound_witness :
    renderLoop (fun _ => false) 0 = .ok 0 ∧
    renderLoop (fun _ => true) 50 = .error .UnstableRenderLoop ∧
    renderLoop (fun _ => true) 0 = .error .UnstableRenderLoop :=
  ⟨stabilization_loop_bound.1 (fun _ => false) 0 rfl,
    stabilization_loop_bound.2.1 (fun _ => true) 50 rfl (by omega),
    stabilization_loop_bound.2.2 0⟩

/-- Argument accepted by a state setter: a plain value or an updater applied
to the old value (`make_setter` checks `callable(value)`). -/
inductive SetterArg : Type where
  | value (v : Int)
  | updater (f : Int → Int)

/-- The state a setter touches: the addressed state slot, the
`_state_changed` flag with its reason, and the `_is_rendering` guard. -/
structure SetterCtx : Type where
  slot : Int
  stateChanged : Bool
  stateChangedReason : Option String
  isRendering : Bool
  deriving Repr

/-- The setter closure produced by `_RenderContext.make_setter`: resolve an
updater against the old value, compare with `eq` (default: inequality);
on change mutate the slot in place, flag the state change with its reason,
and start a render pass only when none is in flight.  The boolean result
records whether `self.render` was invoked. -/
def setterCall (eq : Option (Int → Int → Bool)) (key : String) (arg : SetterArg)
    (s : SetterCtx) : SetterCtx × Bool :=
  let value : Int :=
    match arg with
    | .value v => v
    | .updater f => f s.slot
  let shouldUpdate : Bool :=
    match eq with
    | some e => !(e s.slot value)
    | none => decide (s.slot ≠ value)
  if shouldUpdate then
    let s1 := { s with slot := value }
    let s2 :=
      if s1.stateChanged = false then
        { s1 with stateChanged := true, stateChangedReason := some (key ++ " changed") }
      else s1
    if !s.isRendering then (s2, true) else (s2, false)
  else (s, false)

/-- Whether old and new value count as equal for the setter: the supplied
`eq` predicate, or default equality when none is given. -/
def setterEqHolds (eq : Option (Int → Int → Bool)) (old new : Int) : Prop :=
  match eq with
  | some e => e old new = true
  | none => old = new

instance (eq : Option (Int → Int → Bool)) (old new : Int) :
    Decidable (setterEqHolds eq old new) := by
  unfold setterEqHolds
  cases eq <;> infer_instance

/-- C4: a setter accepts a plain value or an updater applied to the old value;
values equal under the supplied `eq` (or default inequality) change nothing and
trigger no render; differing values mutate the slot in place, flag the state
change, and start a render pass exactly when no pass is in flight — during an
in-flight pass no nested pass starts and only the flag is left for the
stabilization loop. -/
theorem setter_semantics :
    (∀ (eq : Option (Int → Int → Bool)) (key : String) (f : Int → Int) (s : SetterCtx),
      setterCall eq key (.updater f) s = setterCall eq key (.value (f s.slot)) s) ∧
    (∀ (eq : Option (Int → Int → Bool)) (key : String) (v : Int) (s : SetterCtx),
      setterEqHolds eq s.slot v → setterCall eq key (.value v) s = (s, false)) ∧
    (∀ (eq : Option (Int → Int → Bool)) (key : String) (v : Int) (s : SetterCtx),
      ¬ setterEqHolds eq s.slot v →
      setterCall eq key (.value v) s =
        ({ s with
            slot := v
            stateChanged := true
            stateChangedReason :=
              if s.stateChanged = false then some (key ++ " changed")
              else s.stateChangedReason }, !s.isRendering)) := by
  refine ⟨?_, ?_, ?_⟩
  · intro eq key f s
    rfl
  · intro eq key v s h
    cases eq with
    | none =>
      simp only [setterEqHolds] at h
      simp [setterCall, h]
    | some e =>
      simp only [setterEqHolds] at h
      simp [setterCall, h]
  · intro eq key v s h
    cases s with
    | mk slot sc sr ir =>
      cases eq with
      | none =>
        simp only [setterEqHolds] at h
        cases sc <;> cases ir <;> simp [setterCall, h]
      | some e =>
        simp only [setterEqHolds] at h
        have he : e slot v = false := by
          cases hev : e slot v
          · rfl
          · exact absurd hev h
        cases sc <;> cases ir <;> simp [setterCall, he]

theorem setter_semantics_witness :
    setterCall none "x" (.updater (fun v => v + 1)) (SetterCtx.mk 3 false none false)
      = setterCall none "x" (.value 4) (SetterCtx.mk 3 false none false) ∧
    setterCall none "x" (.value 3) (SetterCtx.mk 3 false none false)
      = (SetterCtx.mk 3 false none false, false) ∧
    setterCall none "x" (.value 4) (SetterCtx.mk 3 false none true)
      = (SetterCtx.mk 4 true (some ("x" ++ " changed")) true, false) :=
  ⟨setter_semantics.1 none "x" (fun v => v + 1) (SetterCtx.mk 3 false none false),
    setter_semantics.2.1 none "x" 3 (SetterCtx.mk 3 false none false) rfl,
    by
      have h := setter_semantics.2.2 none "x" 4 (SetterCtx.mk 3 false none true)
        (by simp [setterEqHolds])
      simpa using h⟩

/-- Key resolution of `_RenderContext._render`: the explicit key
(`el._key`) wins when set, otherwise the default key is used. -/
def resolveKey (explicit : Option String) (defaultKey : String) : String :=
  match explicit with
  | some k => k
  | none => defaultKey

/-- The duplicate-key detection of `_RenderContext._render`, folded over the
elements a context renders in one pass: each resolved key is checked against
the used-keys set before being added; a key already present raises the
duplicate-key error. -/
def registerKeys (used : List String) (keys : List String) :
    Except RenderError (List String) :=
  match keys with
  | [] => .ok used
  | k :: rest =>
    if k ∈ used then .error .KeyCollision
    else registerKeys (k :: used) rest

/-- A sibling element as `_render` sees it for key purposes: its optional
explicit key and the positional default key supplied by the parent walk. -/
structure SibElement : Type where
  explicitKey : Option String
  defaultKey : String

/-- The resolved keys of a sibling list, in render order. -/
def resolvedKeys (els : List SibElement) : List String :=
  els.map (fun e => resolveKey e.explicitKey e.defaultKey)

/-- Rendering the children of a pass root for key purposes: the context's
used-keys set is cleared at the pass root (`context.used_keys.clear()`),
then every element registers its resolved key. -/
def renderPassKeys (usedBefore : List String) (els : List SibElement) :
    Except RenderError (List String) :=
  let _ := usedBefore
  registerKeys [] (resolvedKeys els)

theorem registerKeys_ok_iff (keys : List String) :
    ∀ used : List String, (∃ r, registerKeys used keys = .ok r) ↔
      keys.Nodup ∧ ∀ k ∈ keys, k ∉ used := by
  induction keys with
  | nil =>
    intro used
    constructor
    · intro _
      exact ⟨List.nodup_nil, by simp⟩
    · intro _
      exact ⟨used, rfl⟩
  | cons k rest ih =>
    intro used
    have hstep : registerKeys used (k :: rest)
        = if k ∈ used then .error .KeyCollision else registerKeys (k :: used) rest := rfl
    by_cases hk : k ∈ used
    · constructor
      · rintro ⟨r, hr⟩
        rw [hstep, if_pos hk] at hr
        simp at hr
      · rintro ⟨hnd, hfresh⟩
        exact absurd hk (hfresh k (List.mem_cons_self k rest))
    · rw [hstep, if_neg hk, ih (k :: used)]
      constructor
      · rintro ⟨hnd, hfresh⟩
        refine ⟨List.nodup_cons.mpr ⟨?_, hnd⟩, ?_⟩
        · intro hkr
          exact hfresh k hkr (List.mem_cons_self k used)
        · intro k2 hk2
          rcases List.mem_cons.mp hk2 with h | h
          · subst h
            exact hk
          · intro hk2u
            exact hfresh k2 h (List.mem_cons_of_mem k hk2u)
      · rintro ⟨hnd, hfresh⟩
        have hnd2 := List.nodup_cons.mp hnd
        refine ⟨hnd2.2, ?_⟩
        intro k2 hk2 hk2mem
        rcases List.mem_cons.mp hk2mem with h | h
        · subst h
          exact hnd2.1 hk2
        · exact hfresh k2 (List.mem_cons_of_mem k hk2) h

theorem registerKeys_dup_error (keys : List String) (hdup : ¬ keys.Nodup)
    (used : List String) : ∃ e, registerKeys used keys = .error e := by
  rcases hres : registerKeys used keys with e | r
  · exact ⟨e, rfl⟩
  · exact absurd ((registerKeys_ok_iff keys used).mp ⟨r, hres⟩).1 hdup

theorem registerKeys_error_is_collision (keys : List String) :
    ∀ (used : List String) (e : RenderError),
      registerKeys used keys = .error e → e = .KeyCollision := by
  induction keys with
  | nil =>
    intro used e h
    simp [registerKeys] at h
  | cons k rest ih =>
    intro used e h
    by_cases hk : k ∈ used
    · simp [registerKeys, hk] at h
      exact h.symm
    · simp only [registerKeys, hk, if_false] at h
      exact ih (k :: used) e h

/-- C5: key resolution uses the explicit key when set and the default key
otherwise; within one render pass of a context (whose used-keys set is cleared
at the pass root, so earlier passes do not matter), two elements resolving to
the same key raise the key-collision error — in particular two siblings with
the same explicit key. -/
theorem key_resolution_and_collision :
    (∀ (k : String) (d : String), resolveKey (some k) d = k) ∧
    (∀ d : String, resolveKey none d = d) ∧
    (∀ (usedBefore : List String) (els : List SibElement),
      ¬ (resolvedKeys els).Nodup →
      renderPassKeys usedBefore els = .error .KeyCollision) ∧
    (∀ (usedBefore : List String) (pre mid post : List SibElement)
        (k : String) (d1 d2 : String),
      renderPassKeys usedBefore
          (pre ++ SibElement.mk (some k) d1 :: mid ++ SibElement.mk (some k) d2 :: post)
        = .error .KeyCollision) := by
  have herr : ∀ (usedBefore : List String) (els : List SibElement),
      ¬ (resolvedKeys els).Nodup →
      renderPassKeys usedBefore els = .error .KeyCollision := by
    intro usedBefore els hdup
    obtain ⟨e, he⟩ := registerKeys_dup_error (resolvedKeys els) hdup []
    have := registerKeys_error_is_collision (resolvedKeys els) [] e he
    unfold renderPassKeys
    rw [he, this]
  refine ⟨fun k d => rfl, fun d => rfl, herr, ?_⟩
  intro usedBefore pre mid post k d1 d2
  apply herr
  intro hnodup
  have hre : resolvedKeys
      (pre ++ SibElement.mk (some k) d1 :: mid ++ SibElement.mk (some k) d2 :: post)
      = resolvedKeys pre ++ resolveKey (some k) d1 ::
          (resolvedKeys mid ++ resolveKey (some k) d2 :: resolvedKeys post) := by
    simp [resolvedKeys]
  rw [hre] at hnodup
  have h1 := hnodup.of_append_right
  rw [List.nodup_cons] at h1
  exact h1.1 (by simp [resolveKey])

theorem key_resolution_and_collision_witness :
    resolveKey (some "a") "Button/" = "a" ∧
    resolveKey none "Button/" = "Button/" ∧
    renderPassKeys ["stale/"]
        [SibElement.mk (some "a") "0/", SibElement.mk (some "a") "1/"]
      = .error .KeyCollision ∧
    renderPassKeys []
        ([] ++ SibElement.mk (some "a") "0/" :: [] ++ SibElement.mk (some "a") "1/" :: [])
      = .error .KeyCollision :=
  ⟨key_resolution_and_collision.1 "a" "Button/",
    key_resolution_and_collision.2.1 "Button/",
    key_resolution_and_collision.2.2.1 ["stale/"]
      [SibElement.mk (some "a") "0/", SibElement.mk (some "a") "1/"] (by decide),
    key_resolution_and_collision.2.2.2 [] [] [] [] "a" "0/" "1/"⟩

/-- A `user_contexts` mapping of one `ComponentContext`.  A stored value of
`none` models a Python `None` explicitly provided for the key. -/
def UserContexts : Type := List (String × Option Int)

/-- The `dict.get` lookup as `use_context` performs it: a missing key and a stored `None`
both come back as `None`. -/
def ctxGet (m : UserContexts) (key : String) : Option Int :=
  match List.lookup key m with
  | none => none
  | some v => v

/-- Model of `provide_context`: write the value into the current context's
provided-value map (`context.user_contexts[key] = obj`), replacing any
earlier binding for the key. -/
def provideContext (m : UserContexts) (key : String) (v : Option Int) : UserContexts :=
  match m with
  | [] => [(key, v)]
  | (k, w) :: rest =>
    if k = key then (k, v) :: rest else (k, w) :: provideContext rest key v

/-- Model of `use_context`: walk from the current context up through the parent chain
(the chain lists each context's `user_contexts`, current context first)
while the retrieved value is `None`; raise the lookup-failure error when the
chain is exhausted with the value still `None`. -/
def useContext (chain : List UserContexts) (key : String) : Except RenderError Int :=
  match chain with
  | [] => .error .ContextNotFound
  | m :: rest =>
    match ctxGet m key with
    | some v => .ok v
    | none => useContext rest key

theorem ctxGet_provideContext_same (m : UserContexts) (key : String) (v : Option Int) :
    ctxGet (provideContext m key v) key = v := by
  induction m with
  | nil => simp [provideContext, ctxGet, List.lookup]
  | cons p rest ih =>
    rcases p with ⟨k, w⟩
    by_cases hk : k = key
    · simp [provideContext, hk, ctxGet, List.lookup]
    · have hk2 : (key == k) = false := by
        simp [BEq.beq]
        exact fun h => hk h.symm
      simp only [provideContext, hk, if_false]
      simpa [ctxGet, List.lookup, hk2] using ih

/-- C7: `useContext` walks from the current context up the parent chain and
returns the first value retrieved for the key; `provideContext` writes into the
current context's provided-value map (a subsequent lookup there retrieves it);
a walk that exhausts the chain without retrieving a value raises the
context-not-found error. -/
theorem use_context_lookup :
    (∀ (chain : List UserContexts) (key : String),
      (∀ m ∈ chain, ctxGet m key = none) →
      useContext chain key = .error .ContextNotFound) ∧
    (∀ (pre post : List UserContexts) (m : UserContexts) (key : String) (v : Int),
      (∀ m2 ∈ pre, ctxGet m2 key = none) → ctxGet m key = some v →
      useContext (pre ++ m :: post) key = .ok v) ∧
    (∀ (m : UserContexts) (key : String) (v : Option Int),
      ctxGet (provideContext m key v) key = v) := by
  refine ⟨?_, ?_, ctxGet_provideContext_same⟩
  · intro chain key h
    induction chain with
    | nil => rfl
    | cons m rest ih =>
      have hm : ctxGet m key = none := h m (List.mem_cons_self m rest)
      have hrest : ∀ m2 ∈ rest, ctxGet m2 key = none :=
        fun m2 hm2 => h m2 (List.mem_cons_of_mem m hm2)
      simp only [useContext, hm]
      exact ih hrest
  · intro pre post m key v hpre hm
    induction pre with
    | nil =>
      simp only [List.nil_append, useContext, hm]
    | cons m2 rest ih =>
      have hm2 : ctxGet m2 key = none := hpre m2 (List.mem_cons_self m2 rest)
      have hrest : ∀ m3 ∈ rest, ctxGet m3 key = none :=
        fun m3 hm3 => hpre m3 (List.mem_cons_of_mem m2 hm3)
      simp only [List.cons_append, useContext, hm2]
      exact ih hrest

theorem use_context_lookup_witness :
    useContext [[("other", some 1)], []] "theme" = .error .ContextNotFound ∧
    useContext ([[]] ++ [("theme", some 7)] :: [[("theme", some 9)]]) "theme" = .ok 7 ∧
    ctxGet (provideContext [("theme", some 1)] "theme" (some 5)) "theme" = some 5 :=
  ⟨use_context_lookup.1 [[("other", some 1)], []] "theme" (by decide),
    use_context_lookup.2.1 [[]] [[("theme", some 9)]] [("theme", some 7)] "theme" 7
      (by decide) (by decide),
    use_context_lookup.2.2 [("theme", some 1)] "theme" (some 5)⟩

/-- C9: a context that explicitly provided `None` for a key is skipped by the
parent-chain walk exactly as if it had provided nothing — the walk keeps
searching higher ancestors, and when no ancestor holds a non-`None` value the
lookup-failure error is raised even though the key was provided. -/
theorem use_context_none_skipped :
    (∀ (m : UserContexts) (rest : List UserContexts) (key : String),
      ctxGet m key = none → useContext (m :: rest) key = useContext rest key) ∧
    (∀ key : String, ctxGet (provideContext [] key none) key = none) ∧
    (∀ key : String, useContext [provideContext [] key none] key
      = .error .ContextNotFound) := by
  refine ⟨?_, ?_, ?_⟩
  · intro m rest key hm
    simp only [useContext, hm]
  · intro key
    exact ctxGet_provideContext_same [] key none
  · intro key
    have h := ctxGet_provideContext_same [] key none
    simp only [useContext, h]

theorem use_context_none_skipped_witness :
    useContext [[("theme", none)], [("theme", some 3)]] "theme" = .ok 3 ∧
    ctxGet (provideContext [] "theme" none) "theme" = none ∧
    useContext [provideContext [] "theme" none] "theme" = .error .ContextNotFound :=
  ⟨by
    have h := use_context_none_skipped.1 [("theme", none)] [[("theme", some 3)]] "theme"
      (by decide)
    rw [h]
    rfl,
    use_context_none_skipped.2.1 "theme",
    use_context_none_skipped.2.2 "theme"⟩

/-- Widget properties (trait name → value), as mutated by
`_update_widget_prop` via `setattr`. -/
def setProp (w : List (String × Int)) (name : String) (v : Int) : List (String × Int) :=
  match w with
  | [] => [(name, v)]
  | (k, x) :: rest =>
    if k = name then (k, v) :: rest else (k, x) :: setProp rest name v

/-- Model of `Element.split_kwargs`: keyword arguments whose name starts with
`on_` and is not a declared trait become event-listener bindings (keyed by
the name without the prefix); the rest are plain widget properties. -/
def splitKwargs (traitNames : List String) (kwargs : List (String × Int)) :
    List (String × Int) × List (String × Int) :=
  match kwargs with
  | [] => ([], [])
  | (n, v) :: rest =>
    let r := splitKwargs traitNames rest
    if n.startsWith "on_" && !(traitNames.contains n) then (r.1, (n.drop 3, v) :: r.2)
    else ((n, v) :: r.1, r.2)

/-- The `traits[name].default()` call: the declared default value of a trait. -/
def traitDefault (traits : List (String × Int)) (name : String) : Int :=
  match List.lookup name traits with
  | some d => d
  | none => 0

/-- Model of `_RenderContext._update_widget`, kept faithful to the source layout: the
body iterates over the supplied kwargs, writing each property, and the
reset of dropped previous properties to their trait defaults sits inside
that same loop (so it runs once per supplied kwarg, and never when the
current pass supplies no properties). -/
def updateWidget (traits : List (String × Int)) (w : List (String × Int))
    (prevKwargs kwargs : List (String × Int)) : List (String × Int) :=
  kwargs.foldl
    (fun acc nv =>
      let acc1 := setProp acc nv.1 nv.2
      let usedKwargs := (splitKwargs (traits.map Prod.fst) prevKwargs).1
      let droppedArguments :=
        (usedKwargs.map Prod.fst).filter (fun n => !((kwargs.map Prod.fst).contains n))
      droppedArguments.foldl (fun acc2 n => setProp acc2 n (traitDefault traits n)) acc1)
    w

/-- C2 (code bug): by the spec, a property supplied in the previous pass but
absent now must be reset to the trait default, in particular when the current
pass supplies no properties at all; but because the reset loop of
`_update_widget` is nested inside the loop over the supplied kwargs, an update
with empty kwargs writes nothing and the stale value survives — while the same
dropped property is reset as soon as at least one kwarg is supplied. -/
theorem update_widget_empty_kwargs_keeps_stale :
    updateWidget [("description", 0)] [("description", 1)] [("description", 1)] []
      = [("description", 1)] ∧
    [("description", (1 : Int))] ≠ [("description", (0 : Int))] ∧
    updateWidget [("a", 0), ("b", 0)] [("a", 1), ("b", 2)] [("a", 1), ("b", 2)] [("b", 3)]
      = [("a", 0), ("b", 3)] := by
  refine ⟨rfl, by decide, by decide⟩

/-- A Python value as child discovery sees it: an element (with an id
standing for object identity, positional args and keyword-argument
values), a sequence (tuple or list), a mapping (its values — the only
part `find_children` scans), or any other value. -/
inductive Val : Type where
  | elem (i : Nat) (args : List Val) (kwargs : List Val)
  | vlist (xs : List Val)
  | vdict (xs : List Val)
  | vother

mutual

/-- Model of `find_children`: scan the element's kwargs values then args; a directly
embedded element is added without descending into it; an element one level
inside a directly embedded sequence or mapping is added together with its
own `find_children`. -/
def findChildren : Val → List Nat
  | .elem _ args kwargs => scanArgs kwargs ++ scanArgs args
  | .vlist _ => []
  | .vdict _ => []
  | .vother => []

def scanArgs : List Val → List Nat
  | [] => []
  | a :: rest => scanArg a ++ scanArgs rest

def scanArg : Val → List Nat
  | .elem i _ _ => [i]
  | .vlist xs => scanContainer xs
  | .vdict xs => scanContainer xs
  | .vother => []

/-- The body of the inner loop of `find_children`: an `Element` item of a
sequence or mapping contributes itself and its own `find_children`; any
other item contributes nothing. -/
def scanHead : Val → List Nat
  | .elem i args kwargs => i :: findChildren (.elem i args kwargs)
  | .vlist _ => []
  | .vdict _ => []
  | .vother => []

def scanContainer : List Val → List Nat
  | [] => []
  | c :: rest => scanHead c ++ scanContainer rest

end

def topElemId : Val → List Nat
  | .elem i _ _ => [i]
  | _ => []

mutual

/-- Modelled from the spec: the ids of every element embedded anywhere
inside a value, at any depth, descending through elements, sequences and
mappings alike ("finds every embedded element at any depth"). -/
def allNestedIds : Val → List Nat
  | .elem _ args kwargs => nestedIdsList kwargs ++ nestedIdsList args
  | .vlist xs => nestedIdsList xs
  | .vdict xs => nestedIdsList xs
  | .vother => []

def nestedIdsList : List Val → List Nat
  | [] => []
  | v :: rest => topElemId v ++ allNestedIds v ++ nestedIdsList rest

end

def elemId : Val → Nat
  | .elem i _ _ => i
  | _ => 0

/-- The union computed by `ContainerAdder.assign`: `find_children` over every
created element. -/
def unionChildren (created : List Val) : List Nat :=
  created.foldl (fun acc el => acc ++ findChildren el) []

/-- Model of `ContainerAdder.assign`: the created elements not contained in the union
of `find_children` over all created elements, in creation order. -/
def assignTopLevel (created : List Val) : List Val :=
  created.filter (fun el => !((unionChildren created).contains (elemId el)))

/-- Model of `ContainerAdder.assign`, final step: append the top-level created
elements to the current value of the designated child property. -/
def containerAssign (created : List Val) (propValue : List Val) : List Val :=
  propValue ++ assignTopLevel created

/-- C6 (counterexample): `find_children` does not find every embedded element
at any depth — an element nested inside a directly embedded element is missed
(id 2 below), and an element inside a sequence inside a sequence is missed, so
`ContainerAdder` assigns it as top-level even though it is nested inside
another created element (id 5 below). -/
theorem find_children_misses_depth :
    ((2 : Nat) ∈ allNestedIds (.elem 0 [] [.elem 1 [] [.elem 2 [] []]]) ∧
      (2 : Nat) ∉ findChildren (.elem 0 [] [.elem 1 [] [.elem 2 [] []]])) ∧
    ((5 : Nat) ∈ allNestedIds (.elem 10 [] [.vlist [.vlist [.elem 5 [] []]]]) ∧
      assignTopLevel [.elem 5 [] [], .elem 10 [] [.vlist [.vlist [.elem 5 [] []]]]]
        = [.elem 5 [] [], .elem 10 [] [.vlist [.vlist [.elem 5 [] []]]]]) := by
  refine ⟨⟨?_, ?_⟩, ?_, ?_⟩
  · simp [allNestedIds, nestedIdsList, topElemId]
  · simp [findChildren, scanArgs, scanArg, scanContainer, scanHead]
  · simp [allNestedIds, nestedIdsList, topElemId]
  · simp [assignTopLevel, unionChildren, findChildren, scanArgs, scanArg, scanContainer,
      scanHead]

theorem scanArgs_mem_direct (j : Nat) (a k : List Val) :
    ∀ vs : List Val, Val.elem j a k ∈ vs → j ∈ scanArgs vs := by
  intro vs
  induction vs with
  | nil => intro h; cases h
  | cons v rest ih =>
    intro h
    rw [scanArgs]
    rcases List.mem_cons.mp h with h | h
    · subst h
      simp [scanArg]
    · exact List.mem_append_right _ (ih h)

theorem scanContainer_mem (j : Nat) (a k : List Val) :
    ∀ xs : List Val, Val.elem j a k ∈ xs →
      j ∈ scanContainer xs ∧
        ∀ x ∈ findChildren (.elem j a k), x ∈ scanContainer xs := by
  intro xs
  induction xs with
  | nil => intro h; cases h
  | cons c rest ih =>
    intro h
    rcases List.mem_cons.mp h with h | h
    · subst h
      constructor
      · rw [scanContainer, scanHead]
        exact List.mem_append_left _ (List.mem_cons_self _ _)
      · intro x hx
        rw [scanContainer, scanHead]
        exact List.mem_append_left _ (List.mem_cons_of_mem _ hx)
    · have hr := ih h
      constructor
      · rw [scanContainer]
        exact List.mem_append_right _ hr.1
      · intro x hx
        rw [scanContainer]
        exact List.mem_append_right _ (hr.2 x hx)

theorem scanArgs_mem_container (j : Nat) (a k xs : List Val) :
    ∀ vs : List Val, (Val.vlist xs ∈ vs ∨ Val.vdict xs ∈ vs) →
      Val.elem j a k ∈ xs →
      j ∈ scanArgs vs ∧ ∀ x ∈ findChildren (.elem j a k), x ∈ scanArgs vs := by
  intro vs
  induction vs with
  | nil =>
    rintro (h | h) _ <;> cases h
  | cons v rest ih =>
    intro hv hx
    rw [scanArgs]
    have hmem := scanContainer_mem j a k xs hx
    rcases hv with hv | hv
    · rcases List.mem_cons.mp hv with h | h
      · subst h
        refine ⟨List.mem_append_left _ ?_, ?_⟩
        · simpa [scanArg] using hmem.1
        · intro x hxm
          exact List.mem_append_left _ (by simpa [scanArg] using hmem.2 x hxm)
      · have := ih (Or.inl h) hx
        exact ⟨List.mem_append_right _ this.1,
          fun x hxm => List.mem_append_right _ (this.2 x hxm)⟩
    · rcases List.mem_cons.mp hv with h | h
      · subst h
        refine ⟨List.mem_append_left _ ?_, ?_⟩
        · simpa [scanArg] using hmem.1
        · intro x hxm
          exact List.mem_append_left _ (by simpa [scanArg] using hmem.2 x hxm)
      · have := ih (Or.inr h) hx
        exact ⟨List.mem_append_right _ this.1,
          fun x hxm => List.mem_append_right _ (this.2 x hxm)⟩

theorem unionChildren_eq_join :
    ∀ created : List Val, unionChildren created = (created.map findChildren).flatten := by
  have main : ∀ (created : List Val) (acc : List Nat),
      created.foldl (fun acc el => acc ++ findChildren el) acc
        = acc ++ (created.map findChildren).flatten := by
    intro created
    induction created with
    | nil => intro acc; simp
    | cons el rest ih =>
      intro acc
      simp only [List.foldl_cons, List.map_cons, List.flatten]
      rw [ih]
      simp [List.append_assoc]
  intro created
  have h := main created []
  simpa [unionChildren] using h

/-- C6 (amended): child discovery scans an element's kwargs values and args;
it finds every directly embedded element (without descending into it), and
every element one container level inside a directly embedded sequence or
mapping together with all of that element's own discovered children;
`ContainerAdder` then appends to the enclosing element's designated child
property exactly those created elements not found by child discovery of any
created element (the top-level ones), in creation order. -/
theorem child_discovery_and_assign :
    (∀ (i j : Nat) (args kwargs a k : List Val),
      Val.elem j a k ∈ kwargs ++ args → j ∈ findChildren (.elem i args kwargs)) ∧
    (∀ (i j : Nat) (args kwargs xs a k : List Val),
      (Val.vlist xs ∈ kwargs ++ args ∨ Val.vdict xs ∈ kwargs ++ args) →
      Val.elem j a k ∈ xs →
      j ∈ findChildren (.elem i args kwargs) ∧
        ∀ x ∈ findChildren (.elem j a k), x ∈ findChildren (.elem i args kwargs)) ∧
    (∀ created : List Val, (assignTopLevel created).Sublist created) ∧
    (∀ (created : List Val) (el : Val),
      el ∈ assignTopLevel created ↔
        el ∈ created ∧ elemId el ∉ (created.map findChildren).flatten) ∧
    (∀ (created propValue : List Val),
      containerAssign created propValue = propValue ++ assignTopLevel created) := by
  refine ⟨?_, ?_, ?_, ?_, fun created propValue => rfl⟩
  · intro i j args kwargs a k h
    rw [findChildren]
    rcases List.mem_append.mp h with h | h
    · exact List.mem_append_left _ (scanArgs_mem_direct j a k kwargs h)
    · exact List.mem_append_right _ (scanArgs_mem_direct j a k args h)
  · intro i j args kwargs xs a k hv hx
    rw [findChildren]
    rcases hv with hv | hv
    · rcases List.mem_append.mp hv with h | h
      · have := scanArgs_mem_container j a k xs kwargs (Or.inl h) hx
        exact ⟨List.mem_append_left _ this.1,
          fun x hxm => List.mem_append_left _ (this.2 x hxm)⟩
      · have := scanArgs_mem_container j a k xs args (Or.inl h) hx
        exact ⟨List.mem_append_right _ this.1,
          fun x hxm => List.mem_append_right _ (this.2 x hxm)⟩
    · rcases List.mem_append.mp hv with h | h
      · have := scanArgs_mem_container j a k xs kwargs (Or.inr h) hx
        exact ⟨List.mem_append_left _ this.1,
          fun x hxm => List.mem_append_left _ (this.2 x hxm)⟩
      · have := scanArgs_mem_container j a k xs args (Or.inr h) hx
        exact ⟨List.mem_append_right _ this.1,
          fun x hxm => List.mem_append_right _ (this.2 x hxm)⟩
  · intro created
    exact List.filter_sublist _
  · intro created el
    rw [assignTopLevel, List.mem_filter, unionChildren_eq_join]
    simp

theorem child_discovery_and_assign_witness :
    (1 : Nat) ∈ findChildren (.elem 0 [] [.elem 1 [] []]) ∧
    ((3 : Nat) ∈ findChildren (.elem 0 [.vlist [.elem 3 [] [.elem 4 [] []]]] []) ∧
      ∀ x ∈ findChildren (.elem 3 [] [.elem 4 [] []]),
        x ∈ findChildren (.elem 0 [.vlist [.elem 3 [] [.elem 4 [] []]]] [])) ∧
    (assignTopLevel [.elem 1 [] [], .elem 0 [] [.elem 1 [] []]]).Sublist
      [.elem 1 [] [], .elem 0 [] [.elem 1 [] []]] ∧
    (Val.elem 1 [] [] ∈ assignTopLevel [.elem 1 [] [], .elem 0 [] [.elem 1 [] []]] ↔
      Val.elem 1 [] [] ∈ [Val.elem 1 [] [], .elem 0 [] [.elem 1 [] []]] ∧
        elemId (.elem 1 [] [])
          ∉ ([Val.elem 1 [] [], .elem 0 [] [.elem 1 [] []]].map findChildren).flatten) :=
  ⟨child_discovery_and_assign.1 0 1 [] [.elem 1 [] []] [] [] (by simp),
    child_discovery_and_assign.2.1 0 3 [.vlist [.elem 3 [] [.elem 4 [] []]]] []
      [.elem 3 [] [.elem 4 [] []]] [] [.elem 4 [] []] (Or.inl (by simp)) (by simp),
    child_discovery_and_assign.2.2.1 [.elem 1 [] [], .elem 0 [] [.elem 1 [] []]],
    child_discovery_and_assign.2.2.2.1 [.elem 1 [] [], .elem 0 [] [.elem 1 [] []]]
      (.elem 1 [] [])⟩

/-- The tree of live target-node elements as `_remove_element` walks it:
an element id together with the elements nested inside its args/kwargs. -/
inductive WTree : Type where
  | node (i : Nat) (children : List WTree)

mutual

def treeIds : WTree → List Nat
  | .node i cs => i :: forestIds cs

def forestIds : List WTree → List Nat
  | [] => []
  | t :: ts => treeIds t ++ forestIds ts

end

/-- The teardown-relevant state of a `_RenderContext`: the committed element
set `_elements` (by element id) and the keys of the `_orphans` registry
(widget ids that still track orphaned auxiliary nodes). -/
structure RCState : Type where
  elements : List Nat
  orphans : List Nat
  deriving Repr, DecidableEq

mutual

/-- Model of `_RenderContext._remove_element` on a target-node element: a no-op when
the element is not live; otherwise drop it from `_elements`, remove the
nested elements (`_visit_children`), then close the widget with its orphans
and drop its orphan-registry entry. -/
def removeTree : WTree → RCState → RCState
  | .node i cs, s =>
    if i ∈ s.elements then
      let s2 := removeForest cs (RCState.mk (s.elements.erase i) s.orphans)
      RCState.mk s2.elements (s2.orphans.erase i)
    else s

def removeForest : List WTree → RCState → RCState
  | [], s => s
  | t :: ts, s => removeForest ts (removeTree t s)

end

/-- Model of `_RenderContext.close`: remove the root element, then fail loudly if any
element of `_elements` survived, then if any `_orphans` entry survived. -/
def closeRC (root : WTree) (s : RCState) : Except RenderError Unit :=
  let s2 := removeTree root s
  if s2.elements.isEmpty then
    if s2.orphans.isEmpty then .ok () else .error .ResourceLeak
  else .error .ResourceLeak

mutual

theorem removeTree_diff (t : WTree) : ∀ s : RCState, (treeIds t).Nodup →
    (∀ y ∈ treeIds t, y ∈ s.elements) →
    removeTree t s
      = RCState.mk (s.elements.diff (treeIds t)) (s.orphans.diff (treeIds t)) := by
  cases t with
  | node i cs =>
    intro s hnd hall
    have htid : treeIds (.node i cs) = i :: forestIds cs := by rw [treeIds]
    rw [htid] at hnd hall ⊢
    have hi : i ∈ s.elements := hall i (List.mem_cons_self _ _)
    have hnd2 := List.nodup_cons.mp hnd
    have hall2 : ∀ y ∈ forestIds cs, y ∈ (s.elements.erase i) := by
      intro y hy
      have hne : y ≠ i := fun he => hnd2.1 (he ▸ hy)
      exact (List.mem_erase_of_ne hne).mpr (hall y (List.mem_cons_of_mem _ hy))
    rw [removeTree, if_pos hi,
      removeForest_diff cs (RCState.mk (s.elements.erase i) s.orphans) hnd2.2 hall2]
    simp only [List.diff_cons]
    exact congrArg (RCState.mk _) (List.diff_erase _ _ _)

theorem removeForest_diff (ts : List WTree) : ∀ s : RCState, (forestIds ts).Nodup →
    (∀ y ∈ forestIds ts, y ∈ s.elements) →
    removeForest ts s
      = RCState.mk (s.elements.diff (forestIds ts)) (s.orphans.diff (forestIds ts)) := by
  cases ts with
  | nil =>
    intro s _ _
    rw [removeForest, forestIds]
    simp [List.diff_nil]
  | cons t ts2 =>
    intro s hnd hall
    have hfid : forestIds (t :: ts2) = treeIds t ++ forestIds ts2 := by rw [forestIds]
    rw [hfid] at hnd hall ⊢
    have hnd3 := List.nodup_append.mp hnd
    have hnd1 : (treeIds t).Nodup := hnd3.1
    have hnd2 : (forestIds ts2).Nodup := hnd3.2.1
    have hdisj := hnd3.2.2
    have hall1 : ∀ y ∈ treeIds t, y ∈ s.elements :=
      fun y hy => hall y (List.mem_append_left _ hy)
    rw [removeForest, removeTree_diff t s hnd1 hall1]
    have hall2 : ∀ y ∈ forestIds ts2, y ∈ s.elements.diff (treeIds t) := by
      intro y hy
      exact List.mem_diff_of_mem (hall y (List.mem_append_right _ hy))
        (fun hyt => hdisj hyt hy)
    rw [removeForest_diff ts2 _ hnd2 hall2]
    simp [List.diff_append]

end

mutual

theorem removeTree_keeps (t : WTree) : ∀ (s : RCState) (x : Nat),
    x ∈ s.elements → x ∉ treeIds t → x ∈ (removeTree t s).elements := by
  cases t with
  | node i cs =>
    intro s x hx hnot
    rw [treeIds] at hnot
    have hxi : x ≠ i := fun he => hnot (he ▸ List.mem_cons_self _ _)
    have hxf : x ∉ forestIds cs := fun hm => hnot (List.mem_cons_of_mem _ hm)
    rw [removeTree]
    by_cases hi : i ∈ s.elements
    · rw [if_pos hi]
      exact removeForest_keeps cs (RCState.mk (s.elements.erase i) s.orphans) x
        ((List.mem_erase_of_ne hxi).mpr hx) hxf
    · rw [if_neg hi]
      exact hx

theorem removeForest_keeps (ts : List WTree) : ∀ (s : RCState) (x : Nat),
    x ∈ s.elements → x ∉ forestIds ts → x ∈ (removeForest ts s).elements := by
  cases ts with
  | nil =>
    intro s x hx _
    rw [removeForest]
    exact hx
  | cons t ts2 =>
    intro s x hx hnot
    rw [forestIds] at hnot
    have h1 : x ∉ treeIds t := fun hm => hnot (List.mem_append_left _ hm)
    have h2 : x ∉ forestIds ts2 := fun hm => hnot (List.mem_append_right _ hm)
    rw [removeForest]
    exact removeForest_keeps ts2 (removeTree t s) x (removeTree_keeps t s x hx h1) h2

end

mutual

theorem removeTree_keeps_orphan (t : WTree) : ∀ (s : RCState) (x : Nat),
    x ∈ s.orphans → x ∉ treeIds t → x ∈ (removeTree t s).orphans := by
  cases t with
  | node i cs =>
    intro s x hx hnot
    rw [treeIds] at hnot
    have hxi : x ≠ i := fun he => hnot (he ▸ List.mem_cons_self _ _)
    have hxf : x ∉ forestIds cs := fun hm => hnot (List.mem_cons_of_mem _ hm)
    rw [removeTree]
    by_cases hi : i ∈ s.elements
    · rw [if_pos hi]
      exact (List.mem_erase_of_ne hxi).mpr
        (removeForest_keeps_orphan cs (RCState.mk (s.elements.erase i) s.orphans) x hx hxf)
    · rw [if_neg hi]
      exact hx

theorem removeForest_keeps_orphan (ts : List WTree) : ∀ (s : RCState) (x : Nat),
    x ∈ s.orphans → x ∉ forestIds ts → x ∈ (removeForest ts s).orphans := by
  cases ts with
  | nil =>
    intro s x hx _
    rw [removeForest]
    exact hx
  | cons t ts2 =>
    intro s x hx hnot
    rw [forestIds] at hnot
    have h1 : x ∉ treeIds t := fun hm => hnot (List.mem_append_left _ hm)
    have h2 : x ∉ forestIds ts2 := fun hm => hnot (List.mem_append_right _ hm)
    rw [removeForest]
    exact removeForest_keeps_orphan ts2 (removeTree t s) x
      (removeTree_keeps_orphan t s x hx h1) h2

end

/-- C8: the `close()` call tears the tree down by removing the root element; when the
live elements are exactly the tree below the root and every tracked orphan
registry entry belongs to a node of that tree, `close()` succeeds; an element
that is still live but outside the removed tree (a node never closed), or an
orphan registry entry tracked under a widget outside that tree, makes
`close()` raise the resource-leak error. -/
theorem close_teardown :
    (∀ (root : WTree) (s : RCState), (treeIds root).Nodup →
      s.elements.Nodup → s.orphans.Nodup →
      (∀ y ∈ s.elements, y ∈ treeIds root) → (∀ y ∈ treeIds root, y ∈ s.elements) →
      (∀ y ∈ s.orphans, y ∈ treeIds root) →
      closeRC root s = .ok ()) ∧
    (∀ (root : WTree) (s : RCState) (x : Nat), x ∈ s.elements → x ∉ treeIds root →
      closeRC root s = .error .ResourceLeak) ∧
    (∀ (root : WTree) (s : RCState) (x : Nat), x ∈ s.orphans → x ∉ treeIds root →
      closeRC root s = .error .ResourceLeak) := by
  refine ⟨?_, ?_, ?_⟩
  · intro root s hndt hnde hndo hsub hsup horph
    have hrm := removeTree_diff root s hndt hsup
    have hel : s.elements.diff (treeIds root) = [] := by
      rw [List.Nodup.diff_eq_filter hnde]
      exact List.filter_eq_nil_iff.mpr (fun a ha => by simpa using hsub a ha)
    have hor : s.orphans.diff (treeIds root) = [] := by
      rw [List.Nodup.diff_eq_filter hndo]
      exact List.filter_eq_nil_iff.mpr (fun a ha => by simpa using horph a ha)
    unfold closeRC
    rw [hrm]
    simp [hel, hor]
  · intro root s x hx hnot
    have hkeep := removeTree_keeps root s x hx hnot
    unfold closeRC
    rcases hmem : (removeTree root s).elements with _ | ⟨a, rest⟩
    · rw [hmem] at hkeep
      cases hkeep
    · simp [hmem]
  · intro root s x hx hnot
    have hkeep := removeTree_keeps_orphan root s x hx hnot
    unfold closeRC
    rcases hmem : (removeTree root s).elements with _ | ⟨a, rest⟩
    · rcases homem : (removeTree root s).orphans with _ | ⟨b, resto⟩
      · rw [homem] at hkeep
        cases hkeep
      · simp [hmem, homem]
    · simp [hmem]

theorem close_teardown_witness :
    closeRC (.node 1 [.node 2 []]) (RCState.mk [1, 2] [2]) = .ok () ∧
    closeRC (.node 1 [.node 2 []]) (RCState.mk [1, 2, 3] []) = .error .ResourceLeak ∧
    closeRC (.node 1 [.node 2 []]) (RCState.mk [1, 2] [7]) = .error .ResourceLeak := by
  have hids : treeIds (.node 1 [.node 2 []]) = [1, 2] := by
    simp [treeIds, forestIds]
  refine ⟨?_, ?_, ?_⟩
  · exact close_teardown.1 (.node 1 [.node 2 []]) (RCState.mk [1, 2] [2])
      (by rw [hids]; decide) (by decide) (by decide)
      (by rw [hids]; decide) (by rw [hids]; decide) (by rw [hids]; decide)
  · exact close_teardown.2.1 (.node 1 [.node 2 []]) (RCState.mk [1, 2, 3] []) 3
      (by decide) (by rw [hids]; decide)
  · exact close_teardown.2.2 (.node 1 [.node 2 []]) (RCState.mk [1, 2] [7]) 7
      (by decide) (by rw [hids]; decide)

end Reacton
